import Mathlib

set_option maxRecDepth 8000

/- Shallow embedding of the graph-reduction engine in src/graph.py.
   Node labels are integers (Python ints); an edge is stored as the list of
   its endpoints: the program stores 2-element lists, and node_to_edge
   appends a collected neighbour list of arbitrary length, so the edge type
   is List Int.  The weight field is called count, as in the source. -/

abbrev Node := Int

abbrev Edge := List Int

structure Graph where
  edges : List Edge
  nodes : List Node
  count : Int
deriving Repr, DecidableEq

/- Python's e[not e.index(n)]: not idx is True exactly when idx == 0, and a
   bool used as a list index reads position 0 or 1; for n in e this equals
   e[1] if e[0] == n else e[0].  An out-of-range access (IndexError in
   Python, only reachable on degenerate edges shorter than 2 that no run of
   the program produces) is modelled with default 0, never a valid label. -/
def otherEnd (n : Node) (e : Edge) : Node :=
  if e.getD 0 0 = n then e.getD 1 0 else e.getD 0 0

/- Graph.remove_node: self.nodes.remove(n) drops the first occurrence of n;
   the loop over a copy of self.edges removes, by value, one occurrence per
   edge containing n, i.e. it keeps exactly the edges not containing n, in
   order. -/
def Graph.remove_node (g : Graph) (n : Node) : Graph :=
  { g with nodes := g.nodes.erase n,
           edges := g.edges.filter (fun e => decide (n ∉ e)) }

/- Graph.node_to_edge: removes n and every incident edge, collects the other
   endpoint of each incident edge with e[0] != e[1] (in edge order), and
   appends the collected list as one new edge. -/
def Graph.node_to_edge (g : Graph) (n : Node) : Graph :=
  { g with nodes := g.nodes.erase n,
           edges := g.edges.filter (fun e => decide (n ∉ e)) ++
             [(g.edges.filter (fun e => decide (n ∈ e ∧ e.getD 0 0 ≠ e.getD 1 0))).map (otherEnd n)] }

/- Graph.list_nei: for every edge containing n, the endpoint other than n
   (a self-loop contributes n itself), in edge order. -/
def Graph.list_nei (g : Graph) (n : Node) : List Node :=
  (g.edges.filter (fun e => decide (n ∈ e))).map (otherEnd n)

/- Graph.__init__ node derivation and validation: edges are processed left
   to right; a non-positive endpoint raises ValueError (so no object is
   produced, modelled by Option); otherwise each endpoint is appended to
   nodes when not already present (first-occurrence order). -/
def insNode (a : List Node) (x : Node) : List Node :=
  if x ∈ a then a else a ++ [x]

def initNodes (acc : List Node) : List (Int × Int) → Option (List Node)
  | [] => some acc
  | e :: es =>
    if e.1 ≤ 0 ∨ e.2 ≤ 0 then none
    else initNodes (insNode (insNode acc e.1) e.2) es

def initGraph (edges : List (Int × Int)) (count : Int) : Option Graph :=
  match initNodes [] edges with
  | none => none
  | some ns => some ⟨edges.map (fun e => [e.1, e.2]), ns, count⟩

/- simplify's rule table: choices = {(1,1):4,(2,2):4,(0,0):6,(1,0):3,(2,1):2}. -/
def choices (c l : Nat) : Option Int :=
  if c = 1 ∧ l = 1 then some 4
  else if c = 2 ∧ l = 2 then some 4
  else if c = 0 ∧ l = 0 then some 6
  else if c = 1 ∧ l = 0 then some 3
  else if c = 2 ∧ l = 1 then some 2
  else none

/- One pass-1 iteration of simplify's first loop, at snapshot node n: query
   the live graph for the neighbour list; on a table hit multiply count and
   remove n; else on degree 3 with one loop contract n; else do nothing. -/
def simplifyStep (st : Graph × Bool) (n : Node) : Graph × Bool :=
  let nei := st.1.list_nei n
  match choices nei.length (nei.count n) with
  | some v => (Graph.remove_node { st.1 with count := st.1.count * v } n, true)
  | none =>
    if nei.length = 3 ∧ nei.count n = 1 then (st.1.node_to_edge n, true) else st

/- Pass 1 of simplify: iterate over a snapshot of g.nodes taken at pass
   start (nodes = g.nodes.copy()) while the graph mutates underneath. -/
def pass1 (g : Graph) : Graph × Bool := g.nodes.foldl simplifyStep (g, false)

/- Pass 2 scan of simplify: first node of the (post pass-1) node list whose
   live neighbour list has length 2 and no occurrence of the node itself. -/
def forkNode (g : Graph) : List Node → Option Node
  | [] => none
  | n :: ns =>
    let nei := g.list_nei n
    if nei.length = 2 ∧ nei.count n = 0 then some n else forkNode g ns

/- simplify: pass 1, then fork on the first degree-2 loop-free node if one
   exists.  The fork builds each branch as Graph(g.edges.copy(), g.count)
   followed by overwriting nodes with the pass-2 snapshot; for graphs whose
   labels are positive pairs the constructor's validation passes and its
   derived node list is discarded, so the branch is a plain copy. -/
def simplify (g0 : Graph) : List Graph × Bool :=
  match forkNode (pass1 g0).1 (pass1 g0).1.nodes with
  | some n =>
    ([Graph.remove_node
        ⟨(pass1 g0).1.edges, (pass1 g0).1.nodes, (pass1 g0).1.count⟩ n,
      Graph.node_to_edge
        ⟨(pass1 g0).1.edges, (pass1 g0).1.nodes, (pass1 g0).1.count⟩ n], true)
  | none => ([(pass1 g0).1], (pass1 g0).2)

/- Insertion sort standing for Python's sorted on the degree sequences. -/
def insertSorted (x : Nat) : List Nat → List Nat
  | [] => [x]
  | y :: ys => if x ≤ y then x :: y :: ys else y :: insertSorted x ys

def sortNats : List Nat → List Nat
  | [] => []
  | x :: xs => insertSorted x (sortNats xs)

def sortedLens (g : Graph) : List Nat :=
  sortNats (g.nodes.map (fun n => (g.list_nei n).length))

/- iso_check, instrumented: the second component records whether the
   external exact-isomorphism collaborator (networkx is_isomorphic on the
   multigraphs built from nodes and edges) was invoked.  The collaborator
   itself is an opaque parameter. -/
def iso_check_run (oracle : Graph → Graph → Bool) (g1 g2 : Graph) : Bool × Bool :=
  if g1.nodes.length = g2.nodes.length ∧ g1.edges.length = g2.edges.length ∧
      sortedLens g1 = sortedLens g2 then
    (oracle g1 g2, true)
  else (false, false)

def iso_check (oracle : Graph → Graph → Bool) (g1 g2 : Graph) : Bool :=
  (iso_check_run oracle g1 g2).1

/- add_graph_to_list with add_iso=True: bump the count of the first
   isomorphic entry (early return), otherwise fall through to append. -/
def bumpFirstIso (oracle : Graph → Graph → Bool) (g : Graph) :
    List Graph → Option (List Graph)
  | [] => none
  | p :: ps =>
    if iso_check oracle g p then some ({ p with count := p.count + g.count } :: ps)
    else
      match bumpFirstIso oracle g ps with
      | none => none
      | some ps2 => some (p :: ps2)

def add_graph_to_list (oracle : Graph → Graph → Bool) (g : Graph)
    (lst : List Graph) (add_iso : Bool) : List Graph :=
  if add_iso then
    match bumpFirstIso oracle g lst with
    | some lst2 => lst2
    | none => lst ++ [g]
  else lst ++ [g]

/- main's worklist driver.  The inner `for g in queue` iterates a live list
   that the body both removes from (queue.remove(g), at the iterator's
   current index, since objects compare by identity) and appends to; the
   Python list iterator keeps a numeric index, so after a removal at index i
   the element that slid into position i is skipped, while appended elements
   are reached.  This is modelled by an explicit index.  Fuel makes the loop
   a total function; termination is the statement that enough fuel exists. -/
def pyMin : List Nat → Nat
  | [] => 0
  | [x] => x
  | x :: y :: xs => min x (pyMin (y :: xs))

/- k = min(dimensions) if len(set(dimensions)) > 1 else None -/
def computeK (queue : List Graph) : Option Nat :=
  if 1 < (queue.map (fun g => g.nodes.length)).dedup.length then
    some (pyMin (queue.map (fun g => g.nodes.length)))
  else none

/- if not k or len(g.nodes) > k: Python's `not k` is true for None and 0. -/
def condK (k : Option Nat) (g : Graph) : Bool :=
  match k with
  | none => true
  | some m => m == 0 || decide (m < g.nodes.length)

def processGraph (oracle : Graph → Graph → Bool) (g : Graph)
    (queue final : List Graph) : List Graph × List Graph :=
  if (simplify g).2 then
    ((simplify g).1.foldl (fun q b => add_graph_to_list oracle b q true) queue, final)
  else (queue, add_graph_to_list oracle ((simplify g).1.headD g) final true)

def innerLoop (oracle : Graph → Graph → Bool) (k : Option Nat) :
    Nat → Nat → List Graph → List Graph → Option (List Graph × List Graph)
  | 0, i, queue, final => if queue.length ≤ i then some (queue, final) else none
  | fuel + 1, i, queue, final =>
    if h : i < queue.length then
      if condK k (queue.get ⟨i, h⟩) then
        innerLoop oracle k fuel (i + 1)
          (processGraph oracle (queue.get ⟨i, h⟩) (queue.eraseIdx i) final).1
          (processGraph oracle (queue.get ⟨i, h⟩) (queue.eraseIdx i) final).2
      else innerLoop oracle k fuel (i + 1) queue final
    else some (queue, final)

/- 4 ^ (number of nodes): the fuel bound justified below; each processed
   graph of n nodes is replaced by at most two graphs of fewer nodes. -/
def wG (g : Graph) : Nat := 4 ^ g.nodes.length

def totalW (queue : List Graph) : Nat := (queue.map wG).sum

def mainLoop (oracle : Graph → Graph → Bool) :
    Nat → List Graph → List Graph → Option (List Graph)
  | 0, queue, final => if queue.isEmpty then some final else none
  | fuel + 1, queue, final =>
    if queue.isEmpty then some final
    else
      match innerLoop oracle (computeK queue) (totalW queue) 0 queue final with
      | none => none
      | some qf => mainLoop oracle fuel qf.1 qf.2

/- main(init): build the initial graph (constructor validation included) and
   run the worklist until the queue empties. -/
def mainRun (oracle : Graph → Graph → Bool) (init : List (Int × Int)) :
    Option (List Graph) :=
  match initGraph init 1 with
  | none => none
  | some g => mainLoop oracle (wG g) [g] []

/- convert_irreducible.  The outer `for g in lst` loop again iterates the
   live list while lst.remove(g) shrinks it, so the element following a
   removed match is skipped; modelled with the same explicit index. -/
def findIrrMatch (oracle : Graph → Graph → Bool) (g : Graph) :
    List Graph → Option Graph
  | [] => none
  | p :: ps => if iso_check oracle g p then some p else findIrrMatch oracle g ps

def convertLoop (oracle : Graph → Graph → Bool) (irr : List Graph) :
    Nat → Nat → List Graph → Int → Bool → List Graph × Int × Bool
  | 0, _, lst, count, m => (lst, count, m)
  | fuel + 1, i, lst, count, m =>
    if h : i < lst.length then
      match findIrrMatch oracle (lst.get ⟨i, h⟩) irr with
      | some p =>
        convertLoop oracle irr fuel (i + 1) (lst.eraseIdx i)
          (count * (p.count * (lst.get ⟨i, h⟩).count)) true
      | none => convertLoop oracle irr fuel (i + 1) lst count m
    else (lst, count, m)

/- Fuel lst.length is exact: the index grows by one per step and the loop
   stops as soon as it reaches the (never growing) list length, so at fuel
   exhaustion i ≥ length already holds and the same exit value is returned. -/
def convert_irreducible (oracle : Graph → Graph → Bool)
    (lst irr : List Graph) : List Graph :=
  if irr.isEmpty then lst
  else
    match convertLoop oracle irr lst.length 0 lst 1 false with
    | (lst2, count, m) =>
      if m then add_graph_to_list oracle ⟨[], [], count⟩ lst2 true else lst2

/- Model of Python object identity for Graph.__init__'s default argument
   `edges=[]`: a default value is evaluated once, when the def is executed,
   producing a single list object; every later call that omits the argument
   binds self.edges to that same object.  The store maps references (cell
   indices) to list objects; cell 0 is the default object created at module
   load. -/
structure Store where
  cells : List (List Edge)
deriving Repr, DecidableEq

def Store.read (s : Store) (r : Nat) : List Edge := s.cells.getD r []

def Store.write (s : Store) (r : Nat) (v : List Edge) : Store :=
  ⟨s.cells.set r v⟩

def defaultEdgesRef : Nat := 0

structure GraphObj where
  edgesRef : Nat
  nodes : List Node
  count : Int
deriving Repr, DecidableEq

/- Graph() with the edges argument omitted: self.edges is the def-time
   default object (no allocation happens); the validation loop runs over
   the empty list, so nodes = []. -/
def graphDefault (s : Store) (count : Int) : Store × GraphObj :=
  (s, ⟨defaultEdgesRef, [], count⟩)

/- Mutating a graph's edge collection in place (list.append on self.edges,
   as node_to_edge's final statement does). -/
def GraphObj.appendEdge (s : Store) (g : GraphObj) (e : Edge) : Store :=
  s.write g.edgesRef (s.read g.edgesRef ++ [e])

/- The store at module load: the single default list object, empty. -/
def store0 : Store := ⟨[[]]⟩

/- Spec-side definitions, written from the specification's wording, used to
   state the claims against the source-translated functions above. -/

/- "the unique, first-occurrence-ordered set of all endpoints" -/
def endpoints (es : List (Int × Int)) : List Int :=
  es.foldr (fun e r => e.1 :: e.2 :: r) []

def dedupFirst (l : List Int) : List Int :=
  l.foldl insNode []

/- The edges incident to n, the self-loop test on a pair edge, and "the
   endpoint other than n" of a pair edge, as the spec describes them. -/
def incidentE (g : Graph) (n : Node) : List Edge :=
  g.edges.filter (fun e => decide (n ∈ e))

def isLoopE (e : Edge) : Bool :=
  match e with
  | [a, b] => a == b
  | _ => false

def specOther (n : Node) (e : Edge) : Node :=
  match e with
  | [a, b] => if a = n then b else a
  | _ => 0

/- Data-model shape: every edge is a pair of labels. -/
def Pairs (g : Graph) : Prop := ∀ e ∈ g.edges, e.length = 2

/- Data-model invariant of claim C9: endpoints are nodes, labels positive,
   weight at least one. -/
def DataInv (g : Graph) : Prop :=
  (∀ e ∈ g.edges, ∀ x ∈ e, x ∈ g.nodes ∧ 0 < x) ∧ 1 ≤ g.count

/- Pass 1 as claim C5 words it: for each snapshot node, on a live
   (degree, loop-count) hit in the five-entry table multiply the weight and
   remove the node, else contract on degree 3 with one loop, else leave the
   node untouched. -/
def pass1ClaimStep (g : Graph) (n : Node) : Graph :=
  let c := (g.list_nei n).length
  let l := (g.list_nei n).count n
  if (c, l) = (1, 1) then Graph.remove_node { g with count := g.count * 4 } n
  else if (c, l) = (2, 2) then Graph.remove_node { g with count := g.count * 4 } n
  else if (c, l) = (0, 0) then Graph.remove_node { g with count := g.count * 6 } n
  else if (c, l) = (1, 0) then Graph.remove_node { g with count := g.count * 3 } n
  else if (c, l) = (2, 1) then Graph.remove_node { g with count := g.count * 2 } n
  else if c = 3 ∧ l = 1 then g.node_to_edge n
  else g

/- Irreducibility signal: simplify reports no modification. -/
def Irr (g : Graph) : Prop := (simplify g).2 = false

/- Helper lemmas. -/

theorem forkNode_eq_none (g : Graph) (ns : List Node)
    (h : ∀ n ∈ ns, ¬((g.list_nei n).length = 2 ∧ (g.list_nei n).count n = 0)) :
    forkNode g ns = none := by
  induction ns with
  | nil => rfl
  | cons n ns ih =>
    have hn := h n (by simp)
    simp only [forkNode]
    rw [if_neg hn]
    exact ih (fun x hx => h x (by simp [hx]))

/-- C3: the claim that every Graph built without an explicit edge list gets
an independently allocated empty collection is false in the code: the
default argument `edges=[]` is evaluated once, so all such graphs share one
list object, and an in-place append through the first graph's collection is
visible through the second graph's collection (which the claim says must
stay empty). -/
theorem default_edges_shared :
    (graphDefault store0 1).2.edgesRef = (graphDefault (graphDefault store0 1).1 1).2.edgesRef ∧
    (GraphObj.appendEdge
        ((graphDefault (graphDefault store0 1).1 1).1)
        (graphDefault store0 1).2 [1, 2]).read
      (graphDefault (graphDefault store0 1).1 1).2.edgesRef = [[1, 2]] := by
  constructor
  · rfl
  · rfl

/-- C4: evaluation of convert_irreducible (substituteKnownShapes) at the
failing input: classes = [theta-shape weight 5, K4-shape weight 7] where the
theta class matches reference theta(value 6) and the K4 class matches
reference K4(value 24).  Removing the matched theta entry makes the live
loop skip the K4 entry, so it survives unconverted, and only 6*5 = 30 is
accumulated; the claim requires both matches removed and weight
6*5*24*7 = 5040.  The oracle used agrees with exact multigraph isomorphism
on every pair the run queries (equal edge lists are isomorphic; the
prefilter already rejects all structurally different pairs queried here). -/
theorem convert_irreducible_skips_adjacent_match :
    convert_irreducible (fun a b => a.edges == b.edges)
      [⟨[[1,2],[1,2],[1,2]], [1,2], 5⟩,
       ⟨[[1,2],[2,3],[3,1],[1,4],[2,4],[3,4]], [1,2,3,4], 7⟩]
      [⟨[[1,2],[2,3],[3,1],[1,4],[2,4],[3,4]], [1,2,3,4], 24⟩,
       ⟨[[1,2],[1,2],[1,2]], [1,2], 6⟩] =
      [⟨[[1,2],[2,3],[3,1],[1,4],[2,4],[3,4]], [1,2,3,4], 7⟩, ⟨[], [], 30⟩] := by
  decide

/-- C2 counterexample: for g with edges [[1,1]], pass 1 removes the only
node, so afterwards no node at all (hence none with degree 2 and loop count
0) exists, yet simplify returns modified = true, not the claimed false. -/
theorem simplify_flag_counterexample :
    (pass1 ⟨[[1,1]], [1], 1⟩).1.nodes = [] ∧
    (simplify ⟨[[1,1]], [1], 1⟩).2 = true := by
  decide

/-- C2 (amended): if after pass 1 no node of the resulting graph has degree
2 and loop count 0, then simplify returns the single pass-1 result graph
together with modified equal to the pass-1 modification flag (true iff
pass 1 changed the graph), rather than an unconditional false. -/
theorem simplify_no_fork_returns_pass1 (g : Graph)
    (h : ∀ n ∈ (pass1 g).1.nodes,
      ¬(((pass1 g).1.list_nei n).length = 2 ∧ ((pass1 g).1.list_nei n).count n = 0)) :
    simplify g = ([(pass1 g).1], (pass1 g).2) := by
  unfold simplify
  rw [forkNode_eq_none _ _ h]

/-- Witness for the amended C2 at g = ⟨[[1,1]],[1],1⟩: pass 1 removes the
looped node (weight 4), no fork node remains, and simplify returns that
single graph with modified = true. -/
theorem simplify_no_fork_returns_pass1_witness :
    simplify ⟨[[1,1]], [1], 1⟩ =
      ([(pass1 ⟨[[1,1]], [1], 1⟩).1], (pass1 ⟨[[1,1]], [1], 1⟩).2) :=
  simplify_no_fork_returns_pass1 ⟨[[1,1]], [1], 1⟩ (by decide)

/-- C7: the isomorphism adapter returns false without invoking the exact
test (second component of the instrumented run) whenever node counts, edge
counts, or the sorted per-node neighbour-list length sequences disagree,
and the exact test is invoked exactly when all three prefilter conditions
hold. -/
theorem iso_check_prefilter_gate (oracle : Graph → Graph → Bool) (g1 g2 : Graph) :
    (¬(g1.nodes.length = g2.nodes.length ∧ g1.edges.length = g2.edges.length ∧
        sortedLens g1 = sortedLens g2) →
      iso_check oracle g1 g2 = false ∧ (iso_check_run oracle g1 g2).2 = false) ∧
    ((iso_check_run oracle g1 g2).2 = true ↔
      (g1.nodes.length = g2.nodes.length ∧ g1.edges.length = g2.edges.length ∧
        sortedLens g1 = sortedLens g2)) := by
  unfold iso_check iso_check_run
  by_cases h : g1.nodes.length = g2.nodes.length ∧ g1.edges.length = g2.edges.length ∧
      sortedLens g1 = sortedLens g2
  · rw [if_pos h]
    exact ⟨fun hc => absurd h hc, by simpa using h⟩
  · rw [if_neg h]
    exact ⟨fun _ => ⟨rfl, rfl⟩, by simpa using h⟩

/-- Witness for C7: two concrete graphs with different edge counts are
rejected with the exact test never invoked. -/
theorem iso_check_prefilter_gate_witness :
    iso_check (fun _ _ => true) ⟨[[1,2]], [1,2], 1⟩ ⟨[], [1,2], 1⟩ = false ∧
    (iso_check_run (fun _ _ => true) ⟨[[1,2]], [1,2], 1⟩ ⟨[], [1,2], 1⟩).2 = false :=
  (iso_check_prefilter_gate (fun _ _ => true) ⟨[[1,2]], [1,2], 1⟩ ⟨[], [1,2], 1⟩).1
    (by decide)

theorem initNodes_none_iff (es : List (Int × Int)) : ∀ acc,
    initNodes acc es = none ↔ ∃ e ∈ es, e.1 ≤ 0 ∨ e.2 ≤ 0 := by
  induction es with
  | nil => intro acc; simp [initNodes]
  | cons e es ih =>
    intro acc
    simp only [initNodes]
    by_cases hb : e.1 ≤ 0 ∨ e.2 ≤ 0
    · rw [if_pos hb]
      simp only [List.mem_cons, true_iff]
      exact ⟨e, Or.inl rfl, hb⟩
    · rw [if_neg hb, ih]
      constructor
      · rintro ⟨x, hx, hp⟩
        exact ⟨x, List.mem_cons_of_mem _ hx, hp⟩
      · rintro ⟨x, hx, hp⟩
        rcases List.mem_cons.mp hx with rfl | hx2
        · exact absurd hp hb
        · exact ⟨x, hx2, hp⟩

theorem initNodes_some_eq (es : List (Int × Int)) : ∀ acc ns,
    initNodes acc es = some ns → ns = (endpoints es).foldl insNode acc := by
  induction es with
  | nil =>
    intro acc ns h
    simp only [initNodes, Option.some.injEq] at h
    simp [endpoints, ← h]
  | cons e es ih =>
    intro acc ns h
    simp only [initNodes] at h
    by_cases hb : e.1 ≤ 0 ∨ e.2 ≤ 0
    · rw [if_pos hb] at h; cases h
    · rw [if_neg hb] at h
      have := ih _ _ h
      simpa [endpoints] using this

/-- C8: constructGraph(edges, weight) fails exactly when some endpoint is
non-positive (and then no Graph value exists at all, the Option being none),
and on success the node list is the unique endpoints in first-occurrence
order (with edges stored as given and count as passed). -/
theorem construct_validates_and_derives_nodes (edges : List (Int × Int)) (count : Int) :
    (initGraph edges count = none ↔ ∃ e ∈ edges, e.1 ≤ 0 ∨ e.2 ≤ 0) ∧
    ∀ g, initGraph edges count = some g →
      g.nodes = dedupFirst (endpoints edges) ∧
      g.edges = edges.map (fun e => [e.1, e.2]) ∧ g.count = count := by
  unfold initGraph
  constructor
  · cases h : initNodes [] edges with
    | none =>
      simp only [true_iff]
      exact (initNodes_none_iff edges []).mp h
    | some ns =>
      simp only [reduceCtorEq, false_iff]
      intro hex
      have := (initNodes_none_iff edges []).mpr hex
      rw [h] at this
      cases this
  · intro g hg
    cases h : initNodes [] edges with
    | none => rw [h] at hg; cases hg
    | some ns =>
      rw [h] at hg
      have hg2 : g = ⟨edges.map (fun e => [e.1, e.2]), ns, count⟩ :=
        (Option.some.injEq _ _).mp hg.symm
      subst hg2
      refine ⟨?_, rfl, rfl⟩
      exact initNodes_some_eq edges [] ns h

/-- Witness for C8: a non-positive endpoint aborts construction, and on the
valid input [(1,2),(2,3)] the derived node list is the first-occurrence
endpoint order [1,2,3]. -/
theorem construct_validates_witness :
    initGraph [(1, 0)] 1 = none ∧
    (⟨[[1,2],[2,3]], [1,2,3], 1⟩ : Graph).nodes = dedupFirst (endpoints [(1,2),(2,3)]) :=
  ⟨(construct_validates_and_derives_nodes [(1, 0)] 1).1.mpr
      ⟨(1, 0), by decide, by decide⟩,
    ((construct_validates_and_derives_nodes [(1,2),(2,3)] 1).2
      ⟨[[1,2],[2,3]], [1,2,3], 1⟩ (by decide)).1⟩

theorem simplifyStep_fst (st : Graph × Bool) (n : Node) :
    (simplifyStep st n).1 = pass1ClaimStep st.1 n := by
  simp only [simplifyStep, pass1ClaimStep, choices, Prod.mk.injEq]
  split_ifs <;> simp_all

theorem foldl_simplifyStep_fst (ns : List Node) : ∀ st : Graph × Bool,
    (ns.foldl simplifyStep st).1 = ns.foldl pass1ClaimStep st.1 := by
  induction ns with
  | nil => intro st; rfl
  | cons n ns ih =>
    intro st
    simp only [List.foldl_cons]
    rw [ih, simplifyStep_fst]

/-- C5: pass 1 of simplify folds over the snapshot of the node set taken at
pass start, querying the live partially mutated graph at each step, and at
each snapshot node acts exactly as the five-entry table / degree-3-one-loop
contraction / leave-untouched case split describes. -/
theorem pass1_matches_claimed_table (g : Graph) :
    (pass1 g).1 = g.nodes.foldl pass1ClaimStep g :=
  foldl_simplifyStep_fst g.nodes (g, false)

theorem pair_filter_cond (n : Node) (e : Edge) (h : e.length = 2) :
    decide (n ∈ e ∧ e.getD 0 0 ≠ e.getD 1 0) = (decide (n ∈ e) && !isLoopE e) := by
  obtain ⟨a, b, rfl⟩ := List.length_eq_two.mp h
  by_cases h1 : n ∈ [a, b] <;> by_cases h2 : a = b <;> simp [h1, h2, isLoopE]

theorem otherEnd_pair (n : Node) (e : Edge) (h : e.length = 2) :
    otherEnd n e = specOther n e := by
  obtain ⟨a, b, rfl⟩ := List.length_eq_two.mp h
  rfl

theorem specOther_ne (n : Node) (e : Edge) (h : e.length = 2) (hmem : n ∈ e)
    (hnl : isLoopE e = false) : specOther n e ≠ n := by
  obtain ⟨a, b, rfl⟩ := List.length_eq_two.mp h
  simp only [isLoopE, beq_eq_false_iff_ne, ne_eq] at hnl
  simp only [specOther]
  split_ifs with ha
  · intro hb
    exact hnl (hb ▸ ha)
  · exact ha

theorem node_to_edge_edges_spec (g : Graph) (n : Node) (hp : Pairs g) :
    (g.node_to_edge n).edges =
      g.edges.filter (fun e => decide (n ∉ e)) ++
        [((incidentE g n).filter (fun e => !isLoopE e)).map (specOther n)] := by
  unfold Graph.node_to_edge incidentE
  simp only
  congr 1
  rw [List.filter_filter]
  have hf : g.edges.filter (fun e => decide (n ∈ e ∧ e.getD 0 0 ≠ e.getD 1 0)) =
      g.edges.filter (fun a => !isLoopE a && decide (n ∈ a)) := by
    apply List.filter_congr
    intro e he
    exact (pair_filter_cond n e (hp e he)).trans (Bool.and_comm _ _)
  rw [hf]
  congr 1
  apply List.map_congr_left
  intro e he
  exact otherEnd_pair n e (hp e (List.mem_of_mem_filter he))

/-- C10: for every node n of the graph (pair edges), contractNode appends
exactly one new edge: the result edge list is the non-incident edges
followed by a single collected edge whose endpoints are the other endpoints
of n's non-self-loop incident edges, in edge order; its endpoint count
equals the number of non-loop incident edges, so it is empty when every
incident edge is a self-loop and a single endpoint when exactly one
non-loop incident edge exists. -/
theorem node_to_edge_appends_single_edge (g : Graph) (n : Node)
    (_hn : n ∈ g.nodes) (hp : Pairs g) :
    (g.node_to_edge n).edges =
      g.edges.filter (fun e => decide (n ∉ e)) ++
        [((incidentE g n).filter (fun e => !isLoopE e)).map (specOther n)] ∧
    (((incidentE g n).filter (fun e => !isLoopE e)).map (specOther n)).length =
      ((incidentE g n).filter (fun e => !isLoopE e)).length :=
  ⟨node_to_edge_edges_spec g n hp, List.length_map _ _⟩

/-- Witness for C10 at g with a self-loop and one plain edge at node 1: the
appended collected edge is the single endpoint [2], the self-loop being
dropped. -/
theorem node_to_edge_appends_single_edge_witness :
    (Graph.node_to_edge ⟨[[1,1],[1,2]], [1,2], 1⟩ 1).edges =
      ([[1,1],[1,2]] : List Edge).filter (fun e => decide ((1 : Int) ∉ e)) ++
        [((incidentE ⟨[[1,1],[1,2]], [1,2], 1⟩ 1).filter (fun e => !isLoopE e)).map
          (specOther 1)] :=
  (node_to_edge_appends_single_edge ⟨[[1,1],[1,2]], [1,2], 1⟩ 1
    (by decide) (by unfold Pairs; decide)).1

/-- C6: contractNode on a node with exactly two non-loop incident edges
(self-loops at n allowed) yields one fewer node and appends exactly one new
two-endpoint edge joining n's two former neighbours, while every edge
involving n — self-loops included — is dropped from the result. -/
theorem node_to_edge_two_nonloop (g : Graph) (n : Node)
    (hn : n ∈ g.nodes) (hp : Pairs g)
    (h2 : ((incidentE g n).filter (fun e => !isLoopE e)).length = 2) :
    (g.node_to_edge n).nodes.length = g.nodes.length - 1 ∧
    (g.node_to_edge n).edges =
      g.edges.filter (fun e => decide (n ∉ e)) ++
        [((incidentE g n).filter (fun e => !isLoopE e)).map (specOther n)] ∧
    (((incidentE g n).filter (fun e => !isLoopE e)).map (specOther n)).length = 2 ∧
    ∀ e ∈ (g.node_to_edge n).edges, n ∉ e := by
  refine ⟨?_, node_to_edge_edges_spec g n hp, ?_, ?_⟩
  · exact List.length_erase_of_mem hn
  · rw [List.length_map, h2]
  · intro e he
    rw [node_to_edge_edges_spec g n hp] at he
    rcases List.mem_append.mp he with h1 | h1
    · simpa using List.of_mem_filter h1
    · rcases List.mem_singleton.mp h1 with rfl
      intro hmem
      rcases List.mem_map.mp hmem with ⟨e2, he2, heq⟩
      have he2inc := List.mem_of_mem_filter he2
      have hnl : isLoopE e2 = false := by
        have := List.of_mem_filter he2
        simpa using this
      have hlen : e2.length = 2 := hp e2 (List.mem_of_mem_filter he2inc)
      have hmem2 : n ∈ e2 := by
        have := List.of_mem_filter he2inc
        simpa using this
      exact specOther_ne n e2 hlen hmem2 hnl heq

/-- Witness for C6 at node 2 of a path 1-2-3 with an added self-loop [2,2]:
one fewer node remains after contraction. -/
theorem node_to_edge_two_nonloop_witness :
    (Graph.node_to_edge ⟨[[1,2],[2,3],[2,2]], [1,2,3], 1⟩ 2).nodes.length =
      ([1,2,3] : List Node).length - 1 :=
  (node_to_edge_two_nonloop ⟨[[1,2],[2,3],[2,2]], [1,2,3], 1⟩ 2
    (by decide) (by unfold Pairs; decide) (by decide)).1

theorem specOther_mem (n : Node) (e : Edge) (h : e.length = 2) :
    specOther n e ∈ e := by
  obtain ⟨a, b, rfl⟩ := List.length_eq_two.mp h
  simp only [specOther]
  split_ifs <;> simp

theorem bumpFirstIso_mem (oracle : Graph → Graph → Bool) (g : Graph) :
    ∀ lst l2, bumpFirstIso oracle g lst = some l2 → ∀ x ∈ l2,
      ∃ p ∈ lst, x = p ∨ x = { p with count := p.count + g.count } := by
  intro lst
  induction lst with
  | nil => intro l2 h; cases h
  | cons p ps ih =>
    intro l2 h x hx
    simp only [bumpFirstIso] at h
    by_cases hiso : iso_check oracle g p
    · rw [if_pos hiso] at h
      rcases (Option.some.injEq _ _).mp h.symm with rfl
      rcases List.mem_cons.mp hx with rfl | hx2
      · exact ⟨p, by simp, Or.inr rfl⟩
      · exact ⟨x, by simp [hx2], Or.inl rfl⟩
    · rw [if_neg hiso] at h
      cases hb : bumpFirstIso oracle g ps with
      | none => rw [hb] at h; cases h
      | some ps2 =>
        rw [hb] at h
        rcases (Option.some.injEq _ _).mp h.symm with rfl
        rcases List.mem_cons.mp hx with rfl | hx2
        · exact ⟨x, by simp, Or.inl rfl⟩
        · rcases ih ps2 hb x hx2 with ⟨q, hq, hor⟩
          exact ⟨q, by simp [hq], hor⟩

theorem mem_add_graph_to_list (oracle : Graph → Graph → Bool) (g : Graph)
    (lst : List Graph) (add_iso : Bool) :
    ∀ x ∈ add_graph_to_list oracle g lst add_iso,
      x = g ∨ ∃ p ∈ lst, x = p ∨ x = { p with count := p.count + g.count } := by
  intro x hx
  unfold add_graph_to_list at hx
  have happ : x ∈ lst ++ [g] →
      x = g ∨ ∃ p ∈ lst, x = p ∨ x = { p with count := p.count + g.count } := by
    intro hm
    rcases List.mem_append.mp hm with h1 | h1
    · exact Or.inr ⟨x, h1, Or.inl rfl⟩
    · exact Or.inl (List.mem_singleton.mp h1)
  cases add_iso with
  | false => exact happ (by simpa using hx)
  | true =>
    simp only [if_true] at hx
    cases hb : bumpFirstIso oracle g lst with
    | none => rw [hb] at hx; exact happ hx
    | some l2 =>
      rw [hb] at hx
      exact Or.inr (bumpFirstIso_mem oracle g lst l2 hb x hx)

theorem choices_one_le (c l : Nat) (v : Int) (h : choices c l = some v) : 1 ≤ v := by
  unfold choices at h
  split_ifs at h <;> simp only [Option.some.injEq] at h <;> omega

theorem dataInv_remove_node (g : Graph) (n : Node) (hi : DataInv g) :
    DataInv (g.remove_node n) := by
  refine ⟨?_, hi.2⟩
  intro e he x hx
  unfold Graph.remove_node at he
  simp only at he
  have hmem := List.mem_of_mem_filter he
  have hnot : n ∉ e := by simpa using List.of_mem_filter he
  have hx2 := hi.1 e hmem x hx
  have hxn : x ≠ n := fun hxe => hnot (hxe ▸ hx)
  exact ⟨(List.mem_erase_of_ne hxn).mpr hx2.1, hx2.2⟩

theorem dataInv_node_to_edge (g : Graph) (n : Node) (hi : DataInv g)
    (hp : Pairs g) : DataInv (g.node_to_edge n) := by
  refine ⟨?_, hi.2⟩
  intro e he x hx
  unfold Graph.node_to_edge at he
  simp only at he
  rcases List.mem_append.mp he with h1 | h1
  · have hmem := List.mem_of_mem_filter h1
    have hnot : n ∉ e := by simpa using List.of_mem_filter h1
    have hx2 := hi.1 e hmem x hx
    have hxn : x ≠ n := fun hxe => hnot (hxe ▸ hx)
    exact ⟨(List.mem_erase_of_ne hxn).mpr hx2.1, hx2.2⟩
  · rcases List.mem_singleton.mp h1 with rfl
    rcases List.mem_map.mp hx with ⟨e2, he2, rfl⟩
    have he2mem := List.mem_of_mem_filter he2
    have hcond : n ∈ e2 ∧ e2.getD 0 0 ≠ e2.getD 1 0 := by
      simpa using List.of_mem_filter he2
    have hlen : e2.length = 2 := hp e2 he2mem
    rw [otherEnd_pair n e2 hlen]
    have hnl : isLoopE e2 = false := by
      obtain ⟨a, b, rfl⟩ := List.length_eq_two.mp hlen
      simp only [isLoopE, beq_eq_false_iff_ne, ne_eq]
      simpa using hcond.2
    have hmem2 : specOther n e2 ∈ e2 := specOther_mem n e2 hlen
    have hx2 := hi.1 e2 he2mem _ hmem2
    have hne : specOther n e2 ≠ n := specOther_ne n e2 hlen hcond.1 hnl
    exact ⟨(List.mem_erase_of_ne hne).mpr hx2.1, hx2.2⟩

/-- C9: each operation preserves the data-model invariant (edge endpoints
are nodes, labels positive, weight at least 1): removeNode; contractNode on
pair-edge graphs (the data model stores edges as label pairs); the weight
update g.count *= choices[(c,l)] performed by simplify; and insertion,
possibly merging, by addToGroup, every member of whose result satisfies the
invariant when the inserted graph and all previous members do. -/
theorem operations_preserve_invariant (oracle : Graph → Graph → Bool)
    (g : Graph) (n : Node) (c l : Nat) (v : Int) (lst : List Graph)
    (add_iso : Bool) :
    (DataInv g → DataInv (g.remove_node n)) ∧
    (DataInv g → Pairs g → DataInv (g.node_to_edge n)) ∧
    (DataInv g → choices c l = some v → DataInv { g with count := g.count * v }) ∧
    (DataInv g → (∀ p ∈ lst, DataInv p) →
      ∀ x ∈ add_graph_to_list oracle g lst add_iso, DataInv x) := by
  refine ⟨dataInv_remove_node g n, dataInv_node_to_edge g n, ?_, ?_⟩
  · intro hi hv
    refine ⟨hi.1, ?_⟩
    have h1 := choices_one_le c l v hv
    have h2 := hi.2
    show (1 : Int) ≤ g.count * v
    nlinarith
  · intro hi hall x hx
    rcases mem_add_graph_to_list oracle g lst add_iso x hx with h | ⟨p, hp, hor⟩
    · rw [h]; exact hi
    · rcases hor with h | h
      · rw [h]; exact hall p hp
      · rw [h]
        refine ⟨(hall p hp).1, ?_⟩
        have h1 := (hall p hp).2
        have h2 := hi.2
        show (1 : Int) ≤ p.count + g.count
        omega

/-- Witness for C9: a concrete invariant-satisfying graph stays invariant
after removeNode. -/
theorem operations_preserve_invariant_witness :
    DataInv (Graph.remove_node ⟨[[1,2],[2,2]], [1,2], 1⟩ 1) :=
  (operations_preserve_invariant (fun _ _ => false) ⟨[[1,2],[2,2]], [1,2], 1⟩
    1 0 0 4 [] false).1 (by unfold DataInv; decide)

/- Structural lemmas about pass 1 used for the worklist termination and
   final-irreducibility proof. -/

theorem simplifyStep_cases (st : Graph × Bool) (n : Node) :
    simplifyStep st n = st ∨
    ((simplifyStep st n).2 = true ∧
      (simplifyStep st n).1.nodes = st.1.nodes.erase n) := by
  simp only [simplifyStep]
  cases choices (st.1.list_nei n).length ((st.1.list_nei n).count n) with
  | some v => exact Or.inr ⟨rfl, rfl⟩
  | none =>
    by_cases hc : (st.1.list_nei n).length = 3 ∧ (st.1.list_nei n).count n = 1
    · rw [if_pos hc]
      exact Or.inr ⟨rfl, rfl⟩
    · rw [if_neg hc]
      exact Or.inl rfl

theorem pass1_aux (ns : List Node) : ∀ st : Graph × Bool,
    st.1.nodes.Nodup → ns.Nodup → (∀ x ∈ ns, x ∈ st.1.nodes) →
    (ns.foldl simplifyStep st).1.nodes.Nodup ∧
    (ns.foldl simplifyStep st).1.nodes.length ≤ st.1.nodes.length ∧
    (ns.foldl simplifyStep st = st ∨
      ((ns.foldl simplifyStep st).2 = true ∧
        (ns.foldl simplifyStep st).1.nodes.length < st.1.nodes.length)) := by
  induction ns with
  | nil =>
    intro st h1 _ _
    exact ⟨h1, le_refl _, Or.inl rfl⟩
  | cons n ns ih =>
    intro st h1 h2 h3
    simp only [List.foldl_cons]
    rcases simplifyStep_cases st n with heq | ⟨hflag, hnodes⟩
    · rw [heq]
      exact ih st h1 h2.of_cons (fun x hx => h3 x (List.mem_cons_of_mem _ hx))
    · have hnmem : n ∈ st.1.nodes := h3 n (by simp)
      have hlen2 : (simplifyStep st n).1.nodes.length = st.1.nodes.length - 1 := by
        rw [hnodes]
        exact List.length_erase_of_mem hnmem
      have hnodup2 : (simplifyStep st n).1.nodes.Nodup := by
        rw [hnodes]
        exact h1.erase n
      have hsub2 : ∀ x ∈ ns, x ∈ (simplifyStep st n).1.nodes := by
        intro x hx
        rw [hnodes]
        have hxn : x ≠ n := by
          intro hxe
          subst hxe
          exact (List.nodup_cons.mp h2).1 hx
        exact (List.mem_erase_of_ne hxn).mpr (h3 x (List.mem_cons_of_mem _ hx))
      obtain ⟨ha, hb, hc⟩ := ih (simplifyStep st n) hnodup2 (List.nodup_cons.mp h2).2 hsub2
      have hpos : 0 < st.1.nodes.length :=
        List.length_pos.mpr (List.ne_nil_of_mem hnmem)
      refine ⟨ha, by omega, Or.inr ⟨?_, by omega⟩⟩
      rcases hc with he | ⟨hf, _⟩
      · rw [he]
        exact hflag
      · exact hf

theorem pass1_nodup (g : Graph) (h : g.nodes.Nodup) : (pass1 g).1.nodes.Nodup :=
  (pass1_aux g.nodes (g, false) h h (fun _ hx => hx)).1

theorem pass1_le (g : Graph) (h : g.nodes.Nodup) :
    (pass1 g).1.nodes.length ≤ g.nodes.length :=
  (pass1_aux g.nodes (g, false) h h (fun _ hx => hx)).2.1

theorem pass1_cases (g : Graph) (h : g.nodes.Nodup) :
    pass1 g = (g, false) ∨
    ((pass1 g).2 = true ∧ (pass1 g).1.nodes.length < g.nodes.length) :=
  (pass1_aux g.nodes (g, false) h h (fun _ hx => hx)).2.2

theorem pass1_of_not_modified (g : Graph) (h : g.nodes.Nodup)
    (hm : (pass1 g).2 = false) : (pass1 g).1 = g := by
  rcases pass1_cases g h with he | ⟨hf, _⟩
  · rw [he]
  · rw [hf] at hm
    cases hm

theorem forkNode_mem (g : Graph) : ∀ (ns : List Node) (n : Node),
    forkNode g ns = some n → n ∈ ns := by
  intro ns
  induction ns with
  | nil => intro n h; cases h
  | cons x ns ih =>
    intro n h
    simp only [forkNode] at h
    split_ifs at h with hc
    · rcases (Option.some.injEq _ _).mp h.symm with rfl
      simp
    · exact List.mem_cons_of_mem _ (ih n h)

theorem wG_pos (g : Graph) : 1 ≤ wG g := Nat.one_le_pow _ _ (by omega)

theorem simplify_eq_fork (g : Graph) (n : Node)
    (hf : forkNode (pass1 g).1 (pass1 g).1.nodes = some n) :
    simplify g =
      ([Graph.remove_node
          ⟨(pass1 g).1.edges, (pass1 g).1.nodes, (pass1 g).1.count⟩ n,
        Graph.node_to_edge
          ⟨(pass1 g).1.edges, (pass1 g).1.nodes, (pass1 g).1.count⟩ n], true) := by
  unfold simplify
  rw [hf]

theorem simplify_eq_nofork (g : Graph)
    (hf : forkNode (pass1 g).1 (pass1 g).1.nodes = none) :
    simplify g = ([(pass1 g).1], (pass1 g).2) := by
  unfold simplify
  rw [hf]

theorem simplify_not_modified (g : Graph) (h : g.nodes.Nodup)
    (hm : (simplify g).2 = false) : (simplify g).1 = [g] := by
  cases hf : forkNode (pass1 g).1 (pass1 g).1.nodes with
  | some n =>
    rw [simplify_eq_fork g n hf] at hm
    exact Bool.noConfusion hm
  | none =>
    rw [simplify_eq_nofork g hf] at hm ⊢
    have hm2 : (pass1 g).2 = false := hm
    show [(pass1 g).1] = [g]
    rw [pass1_of_not_modified g h hm2]

theorem simplify_branches (g : Graph) (h : g.nodes.Nodup)
    (hm : (simplify g).2 = true) :
    (∀ b ∈ (simplify g).1, b.nodes.length < g.nodes.length ∧ b.nodes.Nodup) ∧
    ((simplify g).1.map wG).sum < wG g := by
  have hnod := pass1_nodup g h
  have hle := pass1_le g h
  cases hf : forkNode (pass1 g).1 (pass1 g).1.nodes with
  | some n =>
    have hres : (simplify g).1 =
        [Graph.remove_node
            ⟨(pass1 g).1.edges, (pass1 g).1.nodes, (pass1 g).1.count⟩ n,
          Graph.node_to_edge
            ⟨(pass1 g).1.edges, (pass1 g).1.nodes, (pass1 g).1.count⟩ n] := by
      rw [simplify_eq_fork g n hf]
    have hmem : n ∈ (pass1 g).1.nodes := forkNode_mem _ _ _ hf
    have hppos : 0 < (pass1 g).1.nodes.length :=
      List.length_pos.mpr (List.ne_nil_of_mem hmem)
    have herase : ((pass1 g).1.nodes.erase n).length =
        (pass1 g).1.nodes.length - 1 := List.length_erase_of_mem hmem
    have hx : 1 ≤ 4 ^ ((pass1 g).1.nodes.length - 1) :=
      Nat.one_le_pow _ _ (by omega)
    have hp4 : (4 : Nat) ^ (pass1 g).1.nodes.length =
        4 ^ ((pass1 g).1.nodes.length - 1) * 4 := by
      conv_lhs =>
        rw [show (pass1 g).1.nodes.length = ((pass1 g).1.nodes.length - 1) + 1 from
          by omega]
      rw [pow_succ]
    have hpow : (4 : Nat) ^ (pass1 g).1.nodes.length ≤ 4 ^ g.nodes.length :=
      Nat.pow_le_pow_right (by omega) hle
    rw [hres]
    constructor
    · intro b hb
      rcases List.mem_cons.mp hb with rfl | hb2
      · refine ⟨?_, hnod.erase n⟩
        show ((pass1 g).1.nodes.erase n).length < g.nodes.length
        unfold wG at *
        omega
      · rcases List.mem_singleton.mp hb2 with rfl
        refine ⟨?_, hnod.erase n⟩
        show ((pass1 g).1.nodes.erase n).length < g.nodes.length
        unfold wG at *
        omega
    · have hwA : wG (Graph.remove_node
          ⟨(pass1 g).1.edges, (pass1 g).1.nodes, (pass1 g).1.count⟩ n) =
          4 ^ ((pass1 g).1.nodes.length - 1) := by
        show (4 : Nat) ^ ((pass1 g).1.nodes.erase n).length = _
        rw [herase]
      have hwB : wG (Graph.node_to_edge
          ⟨(pass1 g).1.edges, (pass1 g).1.nodes, (pass1 g).1.count⟩ n) =
          4 ^ ((pass1 g).1.nodes.length - 1) := by
        show (4 : Nat) ^ ((pass1 g).1.nodes.erase n).length = _
        rw [herase]
      simp only [List.map_cons, List.map_nil, List.sum_cons, List.sum_nil]
      rw [hwA, hwB]
      unfold wG
      omega
  | none =>
    rw [simplify_eq_nofork g hf] at hm ⊢
    have hm2 : (pass1 g).2 = true := hm
    rcases pass1_cases g h with he | ⟨_, hlt⟩
    · rw [he] at hm2
      cases hm2
    · constructor
      · intro b hb
        have hb2 : b ∈ [(pass1 g).1] := hb
        rcases List.mem_singleton.mp hb2 with rfl
        exact ⟨hlt, hnod⟩
      · show ([(pass1 g).1].map wG).sum < wG g
        simp only [List.map_cons, List.map_nil, List.sum_cons, List.sum_nil]
        unfold wG
        have := Nat.pow_lt_pow_right (show 1 < 4 by omega) hlt
        omega

/- The modification flag of simplify does not depend on the count field:
   the structural evolution of pass 1 and the fork scan query only edges
   and nodes. -/

theorem simplifyStep_shape (g h : Graph) (m : Bool) (n : Node)
    (he : g.edges = h.edges) (hn : g.nodes = h.nodes) :
    (simplifyStep (g, m) n).1.edges = (simplifyStep (h, m) n).1.edges ∧
    (simplifyStep (g, m) n).1.nodes = (simplifyStep (h, m) n).1.nodes ∧
    (simplifyStep (g, m) n).2 = (simplifyStep (h, m) n).2 := by
  have hnei : g.list_nei n = h.list_nei n := by
    unfold Graph.list_nei
    rw [he]
  simp only [simplifyStep, hnei]
  cases choices (h.list_nei n).length ((h.list_nei n).count n) with
  | some v =>
    refine ⟨?_, ?_, rfl⟩
    · show (g.edges.filter _) = (h.edges.filter _)
      rw [he]
    · show g.nodes.erase n = h.nodes.erase n
      rw [hn]
  | none =>
    by_cases hc : (h.list_nei n).length = 3 ∧ (h.list_nei n).count n = 1
    · rw [if_pos hc, if_pos hc]
      refine ⟨?_, ?_, rfl⟩
      · show (g.edges.filter _) ++ _ = (h.edges.filter _) ++ _
        rw [he]
      · show g.nodes.erase n = h.nodes.erase n
        rw [hn]
    · rw [if_neg hc, if_neg hc]
      exact ⟨he, hn, rfl⟩

theorem foldl_shape (ns : List Node) : ∀ (g h : Graph) (m : Bool),
    g.edges = h.edges → g.nodes = h.nodes →
    (ns.foldl simplifyStep (g, m)).1.edges =
      (ns.foldl simplifyStep (h, m)).1.edges ∧
    (ns.foldl simplifyStep (g, m)).1.nodes =
      (ns.foldl simplifyStep (h, m)).1.nodes ∧
    (ns.foldl simplifyStep (g, m)).2 = (ns.foldl simplifyStep (h, m)).2 := by
  induction ns with
  | nil =>
    intro g h m he hn
    exact ⟨he, hn, rfl⟩
  | cons n ns ih =>
    intro g h m he hn
    simp only [List.foldl_cons]
    obtain ⟨he2, hn2, hm2⟩ := simplifyStep_shape g h m n he hn
    have hg : simplifyStep (g, m) n =
        ((simplifyStep (g, m) n).1, (simplifyStep (g, m) n).2) := rfl
    have hh : simplifyStep (h, m) n =
        ((simplifyStep (h, m) n).1, (simplifyStep (h, m) n).2) := rfl
    rw [hg, hh, hm2]
    exact ih (simplifyStep (g, m) n).1 (simplifyStep (h, m) n).1
      (simplifyStep (h, m) n).2 he2 hn2

theorem pass1_shape (g : Graph) (c : Int) :
    (pass1 { g with count := c }).1.edges = (pass1 g).1.edges ∧
    (pass1 { g with count := c }).1.nodes = (pass1 g).1.nodes ∧
    (pass1 { g with count := c }).2 = (pass1 g).2 := by
  unfold pass1
  exact foldl_shape g.nodes { g with count := c } g false rfl rfl

theorem forkNode_congr (g h : Graph) (he : g.edges = h.edges) :
    ∀ ns, forkNode g ns = forkNode h ns := by
  intro ns
  have hnei : ∀ n, g.list_nei n = h.list_nei n := by
    intro n
    unfold Graph.list_nei
    rw [he]
  induction ns with
  | nil => rfl
  | cons n ns ih =>
    simp only [forkNode, hnei n, ih]

theorem simplify_snd_count (g : Graph) (c : Int) :
    (simplify { g with count := c }).2 = (simplify g).2 := by
  obtain ⟨he, hn, hf⟩ := pass1_shape g c
  have hfork : forkNode (pass1 { g with count := c }).1
      (pass1 { g with count := c }).1.nodes =
      forkNode (pass1 g).1 (pass1 g).1.nodes := by
    rw [hn]
    exact forkNode_congr _ _ he _
  cases hk : forkNode (pass1 g).1 (pass1 g).1.nodes with
  | some n =>
    rw [simplify_eq_fork g n hk, simplify_eq_fork { g with count := c } n
      (hfork.trans hk)]
  | none =>
    rw [simplify_eq_nofork g hk, simplify_eq_nofork { g with count := c }
      (hfork.trans hk)]
    exact hf

theorem irr_count (g : Graph) (c : Int) (h : Irr g) : Irr { g with count := c } := by
  unfold Irr at *
  rw [simplify_snd_count]
  exact h

/- Sum and weight bookkeeping for the fuel argument. -/

theorem sum_drop_le (l : List Nat) : ∀ j, (l.drop j).sum ≤ l.sum := by
  induction l with
  | nil => intro j; simp
  | cons x l ih =>
    intro j
    cases j with
    | zero => simp
    | succ j2 =>
      simp only [List.drop_succ_cons, List.sum_cons]
      exact le_trans (ih j2) (by omega)

theorem sum_drop_append_le (a : List Nat) : ∀ (b : List Nat) (j : Nat),
    ((a ++ b).drop j).sum ≤ (a.drop j).sum + b.sum := by
  induction a with
  | nil =>
    intro b j
    simpa using sum_drop_le b j
  | cons x a ih =>
    intro b j
    cases j with
    | zero => simp [Nat.add_assoc]
    | succ j2 =>
      simp only [List.cons_append, List.drop_succ_cons]
      exact ih b j2

theorem totalW_append (a b : List Graph) : totalW (a ++ b) = totalW a + totalW b := by
  unfold totalW
  rw [List.map_append, List.sum_append]

theorem totalW_drop_succ_le (l : List Graph) (i : Nat) :
    totalW (l.drop (i + 1)) ≤ totalW (l.drop i) := by
  unfold totalW
  rw [List.map_drop, List.map_drop]
  have h1 : (l.map wG).drop (i + 1) = ((l.map wG).drop i).drop 1 := by
    rw [List.drop_drop]
  rw [h1]
  exact sum_drop_le _ 1

theorem totalW_get_split (l : List Graph) (i : Nat) (h : i < l.length) :
    totalW (l.drop i) = wG (l.get ⟨i, h⟩) + totalW (l.drop (i + 1)) := by
  unfold totalW
  rw [List.drop_eq_getElem_cons h, List.map_cons, List.sum_cons,
    List.get_eq_getElem]

theorem totalW_eraseIdx (l : List Graph) (i : Nat) (h : i < l.length) :
    totalW (l.eraseIdx i) + wG (l.get ⟨i, h⟩) = totalW l := by
  rw [List.eraseIdx_eq_take_drop_succ, totalW_append]
  have h2 : totalW l = totalW (l.take i) + totalW (l.drop i) := by
    rw [← totalW_append, List.take_append_drop]
  rw [h2, totalW_get_split l i h]
  omega

theorem totalW_drop_eraseIdx_le (l : List Graph) (i : Nat) :
    totalW ((l.eraseIdx i).drop (i + 1)) ≤ totalW (l.drop (i + 1)) := by
  rw [List.eraseIdx_eq_take_drop_succ]
  unfold totalW
  have h1 : ((l.take i ++ l.drop (i + 1)).drop (i + 1)).map wG =
      ((l.take i ++ l.drop (i + 1)).map wG).drop (i + 1) :=
    List.map_drop wG _ (i + 1)
  rw [h1, List.map_append]
  have h2 := sum_drop_append_le ((l.take i).map wG) ((l.drop (i + 1)).map wG) (i + 1)
  have h3 : (((l.take i).map wG).drop (i + 1)) = [] := by
    apply List.drop_eq_nil_of_le
    rw [List.length_map]
    have h4 := List.length_take_le i l
    omega
  rw [h3] at h2
  simpa using h2

theorem bumpFirstIso_map_wG (oracle : Graph → Graph → Bool) (g : Graph) :
    ∀ lst l2, bumpFirstIso oracle g lst = some l2 → l2.map wG = lst.map wG := by
  intro lst
  induction lst with
  | nil => intro l2 h; cases h
  | cons p ps ih =>
    intro l2 h
    simp only [bumpFirstIso] at h
    by_cases hiso : iso_check oracle g p
    · rw [if_pos hiso] at h
      rcases (Option.some.injEq _ _).mp h.symm with rfl
      rfl
    · rw [if_neg hiso] at h
      cases hb : bumpFirstIso oracle g ps with
      | none => rw [hb] at h; cases h
      | some ps2 =>
        rw [hb] at h
        rcases (Option.some.injEq _ _).mp h.symm with rfl
        simp only [List.map_cons]
        rw [ih ps2 hb]

theorem map_wG_add (oracle : Graph → Graph → Bool) (g : Graph)
    (lst : List Graph) (add_iso : Bool) :
    (add_graph_to_list oracle g lst add_iso).map wG = lst.map wG ∨
    (add_graph_to_list oracle g lst add_iso).map wG = lst.map wG ++ [wG g] := by
  unfold add_graph_to_list
  cases add_iso with
  | false =>
    right
    simp
  | true =>
    simp only [if_true]
    cases hb : bumpFirstIso oracle g lst with
    | none =>
      right
      simp
    | some l2 => exact Or.inl (bumpFirstIso_map_wG oracle g lst l2 hb)

theorem foldl_add_wsum (oracle : Graph → Graph → Bool) (bs : List Graph) :
    ∀ q : List Graph, ∃ ws : List Nat,
      (bs.foldl (fun q2 b => add_graph_to_list oracle b q2 true) q).map wG =
        q.map wG ++ ws ∧ ws.sum ≤ (bs.map wG).sum := by
  induction bs with
  | nil =>
    intro q
    exact ⟨[], by simp, by simp⟩
  | cons b bs ih =>
    intro q
    simp only [List.foldl_cons]
    obtain ⟨ws1, hw1, hs1⟩ := ih (add_graph_to_list oracle b q true)
    rcases map_wG_add oracle b q true with hq | hq
    · refine ⟨ws1, ?_, ?_⟩
      · rw [hw1, hq]
      · simp only [List.map_cons, List.sum_cons]
        omega
    · refine ⟨wG b :: ws1, ?_, ?_⟩
      · rw [hw1, hq, List.append_assoc]
        rfl
      · simp only [List.map_cons, List.sum_cons, List.sum_cons]
        omega

theorem allNodup_add (oracle : Graph → Graph → Bool) (g : Graph)
    (lst : List Graph) (add_iso : Bool) (hg : g.nodes.Nodup)
    (hall : ∀ p ∈ lst, p.nodes.Nodup) :
    ∀ x ∈ add_graph_to_list oracle g lst add_iso, x.nodes.Nodup := by
  intro x hx
  rcases mem_add_graph_to_list oracle g lst add_iso x hx with h | ⟨p, hp, hor⟩
  · rw [h]; exact hg
  · rcases hor with h | h
    · rw [h]; exact hall p hp
    · rw [h]; exact hall p hp

theorem allIrr_add (oracle : Graph → Graph → Bool) (g : Graph)
    (lst : List Graph) (add_iso : Bool) (hg : Irr g)
    (hall : ∀ p ∈ lst, Irr p) :
    ∀ x ∈ add_graph_to_list oracle g lst add_iso, Irr x := by
  intro x hx
  rcases mem_add_graph_to_list oracle g lst add_iso x hx with h | ⟨p, hp, hor⟩
  · rw [h]; exact hg
  · rcases hor with h | h
    · rw [h]; exact hall p hp
    · rw [h]; exact irr_count p _ (hall p hp)

theorem foldl_add_nodup (oracle : Graph → Graph → Bool) (bs : List Graph) :
    ∀ q : List Graph, (∀ p ∈ q, p.nodes.Nodup) → (∀ b ∈ bs, b.nodes.Nodup) →
    ∀ x ∈ bs.foldl (fun q2 b => add_graph_to_list oracle b q2 true) q,
      x.nodes.Nodup := by
  induction bs with
  | nil =>
    intro q hq _ x hx
    exact hq x hx
  | cons b bs ih =>
    intro q hq hbs x hx
    simp only [List.foldl_cons] at hx
    exact ih (add_graph_to_list oracle b q true)
      (allNodup_add oracle b q true (hbs b (by simp)) hq)
      (fun b2 hb2 => hbs b2 (List.mem_cons_of_mem _ hb2)) x hx

theorem innerLoop_zero (oracle : Graph → Graph → Bool) (k : Option Nat)
    (i : Nat) (queue final : List Graph) (h : queue.length ≤ i) :
    innerLoop oracle k 0 i queue final = some (queue, final) := by
  simp only [innerLoop]
  rw [if_pos h]

theorem innerLoop_exit (oracle : Graph → Graph → Bool) (k : Option Nat)
    (fuel i : Nat) (queue final : List Graph) (h : ¬i < queue.length) :
    innerLoop oracle k (fuel + 1) i queue final = some (queue, final) := by
  simp only [innerLoop]
  rw [dif_neg h]

theorem innerLoop_skip (oracle : Graph → Graph → Bool) (k : Option Nat)
    (fuel i : Nat) (queue final : List Graph) (h : i < queue.length)
    (hc : ¬condK k (queue.get ⟨i, h⟩) = true) :
    innerLoop oracle k (fuel + 1) i queue final =
      innerLoop oracle k fuel (i + 1) queue final := by
  simp only [innerLoop]
  rw [dif_pos h, if_neg hc]

theorem innerLoop_proc (oracle : Graph → Graph → Bool) (k : Option Nat)
    (fuel i : Nat) (queue final : List Graph) (h : i < queue.length)
    (hc : condK k (queue.get ⟨i, h⟩) = true) :
    innerLoop oracle k (fuel + 1) i queue final =
      innerLoop oracle k fuel (i + 1)
        (processGraph oracle (queue.get ⟨i, h⟩) (queue.eraseIdx i) final).1
        (processGraph oracle (queue.get ⟨i, h⟩) (queue.eraseIdx i) final).2 := by
  simp only [innerLoop]
  rw [dif_pos h, if_pos hc]

theorem processGraph_true (oracle : Graph → Graph → Bool) (g : Graph)
    (q f : List Graph) (hm : (simplify g).2 = true) :
    processGraph oracle g q f =
      ((simplify g).1.foldl (fun q2 b => add_graph_to_list oracle b q2 true) q, f) := by
  unfold processGraph
  rw [if_pos hm]

theorem processGraph_false (oracle : Graph → Graph → Bool) (g : Graph)
    (q f : List Graph) (hm : (simplify g).2 = false) :
    processGraph oracle g q f =
      (q, add_graph_to_list oracle ((simplify g).1.headD g) f true) := by
  unfold processGraph
  rw [if_neg (by rw [hm]; exact Bool.false_ne_true)]

theorem innerLoop_run (oracle : Graph → Graph → Bool) (k : Option Nat) :
    ∀ (fuel i : Nat) (queue final : List Graph),
    (∀ g ∈ queue, g.nodes.Nodup) → (∀ g ∈ final, Irr g) →
    totalW (queue.drop i) ≤ fuel →
    ∃ q2 f2, innerLoop oracle k fuel i queue final = some (q2, f2) ∧
      (∀ g ∈ q2, g.nodes.Nodup) ∧ (∀ g ∈ f2, Irr g) ∧
      totalW q2 ≤ totalW queue ∧
      ((∃ g ∈ queue.drop i, condK k g = true) → totalW q2 < totalW queue) := by
  intro fuel
  induction fuel with
  | zero =>
    intro i queue final hq hf hfuel
    have hlen : queue.length ≤ i := by
      by_contra hc
      push_neg at hc
      have h1 := totalW_get_split queue i hc
      have h2 := wG_pos (queue.get ⟨i, hc⟩)
      omega
    refine ⟨queue, final, innerLoop_zero oracle k i queue final hlen, hq, hf,
      le_refl _, ?_⟩
    rintro ⟨g, hg, _⟩
    rw [List.drop_eq_nil_of_le hlen] at hg
    cases hg
  | succ fuel ih =>
    intro i queue final hq hf hfuel
    by_cases h : i < queue.length
    · have hsplit := totalW_get_split queue i h
      have hwg := wG_pos (queue.get ⟨i, h⟩)
      have hgmem : queue.get ⟨i, h⟩ ∈ queue := queue.get_mem i h
      have hdropc : queue.drop i = queue.get ⟨i, h⟩ :: queue.drop (i + 1) := by
        rw [List.drop_eq_getElem_cons h, List.get_eq_getElem]
      by_cases hcond : condK k (queue.get ⟨i, h⟩) = true
      · have herase := totalW_eraseIdx queue i h
        have hdel := totalW_drop_eraseIdx_le queue i
        cases hm : (simplify (queue.get ⟨i, h⟩)).2 with
        | false =>
          have hsimpl := simplify_not_modified _ (hq _ hgmem) hm
          have hIrrg : Irr (queue.get ⟨i, h⟩) := by
            unfold Irr
            exact hm
          have hhead : (simplify (queue.get ⟨i, h⟩)).1.headD (queue.get ⟨i, h⟩) =
              queue.get ⟨i, h⟩ := by
            rw [hsimpl]
            rfl
          have hfin2 := allIrr_add oracle (queue.get ⟨i, h⟩) final true hIrrg hf
          have hstrict : totalW (queue.eraseIdx i) < totalW queue := by omega
          have hdropb : totalW ((queue.eraseIdx i).drop (i + 1)) ≤ fuel := by omega
          have hq1nodup : ∀ g ∈ queue.eraseIdx i, g.nodes.Nodup :=
            fun p hp => hq p (List.mem_of_mem_eraseIdx hp)
          have hrun := innerLoop_proc oracle k fuel i queue final h hcond
          rw [processGraph_false oracle _ _ _ hm, hhead] at hrun
          obtain ⟨q2, f2, hrun2, hn2, hf2, hle2, _⟩ :=
            ih (i + 1) (queue.eraseIdx i)
              (add_graph_to_list oracle (queue.get ⟨i, h⟩) final true)
              hq1nodup hfin2 hdropb
          refine ⟨q2, f2, ?_, hn2, hf2, le_trans hle2 (le_of_lt hstrict),
            fun _ => lt_of_le_of_lt hle2 hstrict⟩
          rw [hrun]
          exact hrun2
        | true =>
          obtain ⟨hbr, hws⟩ := simplify_branches _ (hq _ hgmem) hm
          obtain ⟨ws, hweq, hwsum⟩ :=
            foldl_add_wsum oracle (simplify (queue.get ⟨i, h⟩)).1 (queue.eraseIdx i)
          have htq1 : totalW ((simplify (queue.get ⟨i, h⟩)).1.foldl
              (fun q2 b => add_graph_to_list oracle b q2 true) (queue.eraseIdx i)) =
              totalW (queue.eraseIdx i) + ws.sum := by
            unfold totalW
            rw [hweq, List.sum_append]
          have hstrict : totalW ((simplify (queue.get ⟨i, h⟩)).1.foldl
              (fun q2 b => add_graph_to_list oracle b q2 true) (queue.eraseIdx i)) <
              totalW queue := by omega
          have hdropb : totalW (((simplify (queue.get ⟨i, h⟩)).1.foldl
              (fun q2 b => add_graph_to_list oracle b q2 true)
              (queue.eraseIdx i)).drop (i + 1)) ≤ fuel := by
            have h1 := List.map_drop wG ((simplify (queue.get ⟨i, h⟩)).1.foldl
              (fun q2 b => add_graph_to_list oracle b q2 true) (queue.eraseIdx i)) (i + 1)
            have h2 : totalW (((simplify (queue.get ⟨i, h⟩)).1.foldl
                (fun q2 b => add_graph_to_list oracle b q2 true)
                (queue.eraseIdx i)).drop (i + 1)) =
                ((((simplify (queue.get ⟨i, h⟩)).1.foldl
                  (fun q2 b => add_graph_to_list oracle b q2 true)
                  (queue.eraseIdx i)).map wG).drop (i + 1)).sum := by
              unfold totalW
              rw [h1]
            rw [hweq] at h2
            have h3 := sum_drop_append_le ((queue.eraseIdx i).map wG) ws (i + 1)
            have h4 : (((queue.eraseIdx i).map wG).drop (i + 1)).sum =
                totalW ((queue.eraseIdx i).drop (i + 1)) := by
              unfold totalW
              rw [List.map_drop]
            omega
          have hq1nodup : ∀ g ∈ (simplify (queue.get ⟨i, h⟩)).1.foldl
              (fun q2 b => add_graph_to_list oracle b q2 true) (queue.eraseIdx i),
              g.nodes.Nodup := by
            apply foldl_add_nodup
            · intro p hp
              exact hq p (List.mem_of_mem_eraseIdx hp)
            · intro b hb
              exact (hbr b hb).2
          have hrun := innerLoop_proc oracle k fuel i queue final h hcond
          rw [processGraph_true oracle _ _ _ hm] at hrun
          obtain ⟨q2, f2, hrun2, hn2, hf2, hle2, _⟩ :=
            ih (i + 1) ((simplify (queue.get ⟨i, h⟩)).1.foldl
              (fun q2 b => add_graph_to_list oracle b q2 true) (queue.eraseIdx i))
              final hq1nodup hf hdropb
          refine ⟨q2, f2, ?_, hn2, hf2, le_trans hle2 (le_of_lt hstrict),
            fun _ => lt_of_le_of_lt hle2 hstrict⟩
          rw [hrun]
          exact hrun2
      · have hdropb : totalW (queue.drop (i + 1)) ≤ fuel := by omega
        have hrun := innerLoop_skip oracle k fuel i queue final h hcond
        obtain ⟨q2, f2, hrun2, hn2, hf2, hle2, hstrict2⟩ :=
          ih (i + 1) queue final hq hf hdropb
        refine ⟨q2, f2, by rw [hrun]; exact hrun2, hn2, hf2, hle2, ?_⟩
        rintro ⟨g2, hg2, hc2⟩
        rw [hdropc] at hg2
        rcases List.mem_cons.mp hg2 with rfl | hg3
        · exact absurd hc2 hcond
        · exact hstrict2 ⟨g2, hg3, hc2⟩
    · refine ⟨queue, final, innerLoop_exit oracle k fuel i queue final h, hq, hf,
        le_refl _, ?_⟩
      rintro ⟨g, hg, _⟩
      rw [List.drop_eq_nil_of_le (by omega)] at hg
      cases hg

theorem pyMin_le (l : List Nat) : ∀ x ∈ l, pyMin l ≤ x := by
  induction l with
  | nil => intro x hx; cases hx
  | cons a l ih =>
    intro x hx
    cases l with
    | nil =>
      rcases List.mem_singleton.mp hx with rfl
      exact le_refl x
    | cons b l2 =>
      rcases List.mem_cons.mp hx with rfl | hx2
      · exact min_le_left _ _
      · exact le_trans (min_le_right _ _) (ih x hx2)

theorem nodup_const_len_le_one (l : List Nat) (m : Nat) (hn : l.Nodup)
    (hc : ∀ x ∈ l, x = m) : l.length ≤ 1 := by
  cases l with
  | nil => simp
  | cons a l2 =>
    cases l2 with
    | nil => simp
    | cons b l3 =>
      exfalso
      have ha := hc a (by simp)
      have hb := hc b (by simp)
      have hne : a ≠ b := by
        intro he
        apply (List.nodup_cons.mp hn).1
        rw [he]
        exact List.mem_cons_self b l3
      exact hne (ha.trans hb.symm)

/- Whenever the queue is non-empty, the threshold test passes for at least
   one queued graph, so each outer pass processes at least one graph. -/
theorem exists_condK (queue : List Graph) (h : queue ≠ []) :
    ∃ g ∈ queue, condK (computeK queue) g = true := by
  unfold computeK
  by_cases hd : 1 < (queue.map (fun g => g.nodes.length)).dedup.length
  · rw [if_pos hd]
    by_cases hm0 : pyMin (queue.map (fun g => g.nodes.length)) = 0
    · obtain ⟨g0, hg0⟩ := List.exists_mem_of_ne_nil queue h
      refine ⟨g0, hg0, ?_⟩
      unfold condK
      rw [hm0]
      simp
    · by_cases hall : ∀ x ∈ queue.map (fun g => g.nodes.length),
          x = pyMin (queue.map (fun g => g.nodes.length))
      · exfalso
        have hlen := nodup_const_len_le_one _ _ (List.nodup_dedup _)
          (fun x hx => hall x (List.mem_dedup.mp hx))
        omega
      · push_neg at hall
        obtain ⟨d, hd2, hdm⟩ := hall
        obtain ⟨g0, hg0, hg0d⟩ := List.mem_map.mp hd2
        refine ⟨g0, hg0, ?_⟩
        have hge := pyMin_le _ d hd2
        have hgt : pyMin (queue.map (fun g => g.nodes.length)) < g0.nodes.length := by
          rw [hg0d]
          omega
        unfold condK
        simp [hgt]
  · rw [if_neg hd]
    obtain ⟨g0, hg0⟩ := List.exists_mem_of_ne_nil queue h
    exact ⟨g0, hg0, rfl⟩

theorem mainLoop_run (oracle : Graph → Graph → Bool) :
    ∀ (fuel : Nat) (queue final : List Graph),
    (∀ g ∈ queue, g.nodes.Nodup) → (∀ g ∈ final, Irr g) → totalW queue ≤ fuel →
    ∃ r, mainLoop oracle fuel queue final = some r ∧ ∀ g ∈ r, Irr g := by
  intro fuel
  induction fuel with
  | zero =>
    intro queue final hq hf hfuel
    cases queue with
    | nil => exact ⟨final, by simp [mainLoop], hf⟩
    | cons g qs =>
      exfalso
      have h1 := wG_pos g
      have h2 : totalW (g :: qs) = wG g + totalW qs := by
        unfold totalW
        simp
      omega
  | succ fuel ih =>
    intro queue final hq hf hfuel
    by_cases hqe : queue = []
    · subst hqe
      exact ⟨final, by simp [mainLoop], hf⟩
    · obtain ⟨q2, f2, hrun, hn2, hf2, hle2, hstrict⟩ :=
        innerLoop_run oracle (computeK queue) (totalW queue) 0 queue final hq hf
          (by simp)
      have hstrict2 : totalW q2 < totalW queue :=
        hstrict (by simpa using exists_condK queue hqe)
      have hfuel2 : totalW q2 ≤ fuel := by omega
      obtain ⟨r, hrun2, hr⟩ := ih q2 f2 hn2 hf2 hfuel2
      refine ⟨r, ?_, hr⟩
      simp only [mainLoop]
      rw [if_neg (by simp [List.isEmpty_iff]; exact hqe), hrun]
      exact hrun2

theorem insNode_nodup (a : List Node) (x : Node) (h : a.Nodup) :
    (insNode a x).Nodup := by
  unfold insNode
  split_ifs with hx
  · exact h
  · rw [List.nodup_append]
    refine ⟨h, List.nodup_singleton x, ?_⟩
    intro y hy hyx
    rcases List.mem_singleton.mp hyx with rfl
    exact hx hy

theorem initNodes_nodup : ∀ (es : List (Int × Int)) (acc ns : List Node),
    acc.Nodup → initNodes acc es = some ns → ns.Nodup := by
  intro es
  induction es with
  | nil =>
    intro acc ns h1 h2
    simp only [initNodes, Option.some.injEq] at h2
    rw [← h2]
    exact h1
  | cons e es ih =>
    intro acc ns h1 h2
    simp only [initNodes] at h2
    by_cases hb : e.1 ≤ 0 ∨ e.2 ≤ 0
    · rw [if_pos hb] at h2
      cases h2
    · rw [if_neg hb] at h2
      exact ih _ ns (insNode_nodup _ _ (insNode_nodup _ _ h1)) h2

/-- C1: for every valid edge list (all labels positive) and every
isomorphism oracle, the worklist driver terminates (the fuelled run, given
the a-priori computed fuel, returns a result instead of running out), and
every graph in the returned final collection is irreducible: running
simplify on it reports modified = false. -/
theorem reduceFully_terminates_and_final_irreducible
    (oracle : Graph → Graph → Bool) (init : List (Int × Int))
    (hval : ∀ e ∈ init, 0 < e.1 ∧ 0 < e.2) :
    ∃ r, mainRun oracle init = some r ∧ ∀ g ∈ r, (simplify g).2 = false := by
  have hnone : initNodes [] init ≠ none := by
    rw [Ne, initNodes_none_iff]
    rintro ⟨e, he, hp⟩
    have := hval e he
    omega
  cases hi : initNodes [] init with
  | none => exact absurd hi hnone
  | some ns =>
    have hnodup : ns.Nodup := initNodes_nodup init [] ns List.nodup_nil hi
    have hg : initGraph init 1 = some ⟨init.map (fun e => [e.1, e.2]), ns, 1⟩ := by
      unfold initGraph
      rw [hi]
    obtain ⟨r, hrun, hr⟩ := mainLoop_run oracle
      (wG ⟨init.map (fun e => [e.1, e.2]), ns, 1⟩)
      [⟨init.map (fun e => [e.1, e.2]), ns, 1⟩] []
      (by
        intro g hg2
        rcases List.mem_singleton.mp hg2 with rfl
        exact hnodup)
      (by intro g hg2; cases hg2)
      (by unfold totalW; simp)
    refine ⟨r, ?_, fun g hg2 => hr g hg2⟩
    unfold mainRun
    rw [hg]
    exact hrun

/-- Witness for C1 at the edge list [(1,1)] with a concrete oracle: the run
returns a result. -/
theorem reduceFully_terminates_witness :
    (mainRun (fun _ _ => false) [(1, 1)]).isSome = true := by
  obtain ⟨r, hr, _⟩ := reduceFully_terminates_and_final_irreducible
    (fun _ _ => false) [(1, 1)] (by decide)
  rw [hr]
  rfl
